import Mathlib

/-
  Verification development for the inventory application
  (source: src/inventory_app.py).

  The embedding models:
  - the composite key codec `make_key` / `split_key` (lines 72-78),
  - the session inventory store (a Python dict from composite key to
    a record holding a quantity) together with the UI callbacks that
    mutate it: add (lines 221-229), plus / minus buttons (251-254),
    delete (255-257), direct quantity edit (264-265), tag change
    (267-272), clear (275-276),
  - the template loader `load_template_into_inventory` (189-195) and
    the inventory init guard (197-202),
  - the grouped report renderer inside `send_email` (112-147),
  - the send-button readiness flag and the credentials warning
    (lines 38-39 and 293-296).

  Quantities are Python ints, modelled as Int.  The dict is modelled
  as an insertion-ordered association list with unique keys (Python
  dicts preserve insertion order; `setdefault` appends a fresh key at
  the end, in-place assignment keeps the position).
-/

namespace Inv

/- Separator string (line 72: SEP = "~~~"). -/
def SEP : String := "~~~"

/- The separator as a character list, for reasoning about `rsplit`. -/
def sepL : List Char := ['~', '~', '~']

/- Whitespace predicate of Python str.strip (ASCII whitespace). -/
def isWS (c : Char) : Bool :=
  c == ' ' || c == '\t' || c == '\n' || c == '\r' || c == '\x0b' || c == '\x0c'

/- List-level core of Python str.strip: drop whitespace on both ends. -/
def stripChars (l : List Char) : List Char :=
  ((l.dropWhile isWS).reverse.dropWhile isWS).reverse

/- Python name.strip(). -/
def strip (s : String) : String := String.mk (stripChars s.data)

/- Line 74-75: make_key(name, tag) = f"{name.strip()}{SEP}{tag}". -/
def make_key (name tag : String) : String := strip name ++ SEP ++ tag

/- Whether sepL occurs as a contiguous sublist (the separator substring). -/
def hasSepAux : List Char → Bool
  | [] => false
  | c :: rest => decide ((c :: rest).take 3 = sepL) || hasSepAux rest

/- Whether a string contains the separator substring "~~~". -/
def hasSep (s : String) : Bool := hasSepAux s.data

/-
  Python key.rsplit(SEP, 1): split at the LAST occurrence of the
  separator.  Returns none when the separator does not occur.
-/
def rsplitLast : List Char → Option (List Char × List Char)
  | [] => none
  | c :: rest =>
    match rsplitLast rest with
    | some p => some (c :: p.1, p.2)
    | none =>
      if (c :: rest).take 3 = sepL then some ([], (c :: rest).drop 3)
      else none

/-
  Line 77-78: split_key(key) = key.rsplit(SEP, 1).  Python returns a
  list: two parts when the separator occurs, and the singleton [key]
  when it does not (the annotated Tuple[str, str] is then wrong and
  callers that unpack a pair raise a generic ValueError).
-/
def split_key (key : String) : List String :=
  match rsplitLast key.data with
  | some p => [String.mk p.1, String.mk p.2]
  | none => [key]

/-
  The pair produced by `name, tag = split_key(key)`.  On a key without
  the separator the source raises; every key stored by the app is
  produced by make_key and hence contains the separator, and theorems
  about this function carry that hypothesis (rsplitLast = some _).
  The fallback (key, "") is never exercised under those hypotheses.
-/
def split2 (key : String) : String × String :=
  match rsplitLast key.data with
  | some p => (String.mk p.1, String.mk p.2)
  | none => (key, "")

def nameOfKey (k : String) : String := (split2 k).1

def tagOfKey (k : String) : String := (split2 k).2

/- The session inventory: dict[key, {"qty": int}] as an ordered list. -/
abbrev Store := List (String × Int)

/- Python inventory.get-style lookup of the qty stored under a key. -/
def lookupQty : Store → String → Option Int
  | [], _ => none
  | kv :: rest, key => if kv.1 = key then some kv.2 else lookupQty rest key

/- Number of entries stored under a key (dicts keep this at most 1). -/
def countKey (s : Store) (key : String) : Nat :=
  (s.filter (fun kv => decide (kv.1 = key))).length

/- The keys of the store are pairwise distinct (Python dict keys). -/
abbrev keysNodup (s : Store) : Prop := (s.map Prod.fst).Nodup

/-
  inventory.setdefault(key, {"qty": 0})["qty"] += q : add q to the
  entry in place when the key exists, otherwise append (key, 0 + q).
-/
def setdefaultAdd : Store → String → Int → Store
  | [], key, q => [(key, q)]
  | kv :: rest, key, q =>
    if kv.1 = key then (kv.1, kv.2 + q) :: rest
    else kv :: setdefaultAdd rest key q

/- In-place update of the qty under an existing key (no-op if absent). -/
def updateKey : Store → String → (Int → Int) → Store
  | [], _, _ => []
  | kv :: rest, key, f =>
    if kv.1 = key then (kv.1, f kv.2) :: rest
    else kv :: updateKey rest key f

/- inventory.pop(key, None): remove the entry if present. -/
def popKey : Store → String → Store
  | [], _ => []
  | kv :: rest, key => if kv.1 = key then rest else kv :: popKey rest key

/- inventory[key] = {"qty": v}: overwrite in place or append. -/
def setKey : Store → String → Int → Store
  | [], key, v => [(key, v)]
  | kv :: rest, key, v =>
    if kv.1 = key then (kv.1, v) :: rest
    else kv :: setKey rest key v

/-
  Lines 221-229, add_item_cb: strip the typed name, silently return
  when it is empty, otherwise merge qty into the entry of
  make_key(name, tag).  The qty widget (line 235) has min_value=0.
-/
def add_item_cb (s : Store) (nameInput tag : String) (qty : Int) : Store :=
  let name := strip nameInput
  if name = "" then s
  else setdefaultAdd s (make_key name tag) qty

/- Lines 251-252: the plus button increments the entry in place. -/
def plus_cb (s : Store) (key : String) : Store :=
  updateKey s key (fun q => q + 1)

/- Lines 253-254: the minus button clamps at zero, max(0, qty - 1). -/
def minus_cb (s : Store) (key : String) : Store :=
  updateKey s key (fun q => max 0 (q - 1))

/- Lines 264-265: the number input overwrites the qty (min_value=0). -/
def set_qty_cb (s : Store) (key : String) (q : Int) : Store :=
  updateKey s key (fun _ => q)

/- Lines 255-257: the delete button pops the entry. -/
def del_cb (s : Store) (key : String) : Store := popKey s key

/-
  Lines 267-272, the tag change handler: fires only when the selected
  tag differs from the current tag of the entry; merges the qty into
  make_key(name, new_tag) via setdefault-add, then pops the old key.
-/
def tag_change_cb (s : Store) (key newTag : String) : Store :=
  let nt := split2 key
  if newTag = nt.2 then s
  else popKey (setdefaultAdd s (make_key nt.1 newTag) ((lookupQty s key).getD 0)) key

/- Lines 275-276: the clear button empties the dict. -/
def clear_cb (_s : Store) : Store := []

/- A row of a template JSON list: a dict read with .get. -/
structure TemplateItem where
  name : Option String
  tag : Option String

/-
  Loop body of load_template_into_inventory (lines 191-194):
  name, tag = itm.get("name"), itm.get("tag", CATEGORIES[0]);
  if name: inventory[make_key(name, tag)] = {"qty": 0}.
  A missing name (None) and an empty name are both falsy and skipped.
-/
def load_step (firstCat : String) (s : Store) (itm : TemplateItem) : Store :=
  let name := itm.name.getD ""
  let tag := itm.tag.getD firstCat
  if name = "" then s else setKey s (make_key name tag) 0

/-
  Lines 189-195, load_template_into_inventory: rebuild the store from
  the template rows; rows with a missing (or empty) name are skipped,
  a missing tag defaults to CATEGORIES[0] (passed here as firstCat),
  and every created entry has qty 0.
-/
def load_template_into_inventory
    (items : List TemplateItem) (firstCat : String) : Store :=
  items.foldl (load_step firstCat) []

/-
  Line 93 of load_template: when the template file parses to a list,
  rows that are not dicts or have a falsy "name" are dropped.
-/
def load_template_rows (data : List TemplateItem) : List TemplateItem :=
  data.filter (fun itm => decide (itm.name.getD "" ≠ ""))

/- The session state fields consulted by the init guard. -/
structure SessionState where
  inventory : Option Store
  inventoryProfile : Option String

/-
  Lines 197-202, the inventory init guard run at the top of every
  Streamlit event cycle: reload from the template when no mapping
  exists, the profile changed, or the mapping is empty.
-/
def init_inventory (sess : SessionState) (profile : String)
    (items : List TemplateItem) (firstCat : String) : Store :=
  match sess.inventory with
  | none => load_template_into_inventory items firstCat
  | some inv =>
    if sess.inventoryProfile ≠ some profile ∨ inv = [] then
      load_template_into_inventory items firstCat
    else inv

/- One UI-level store operation, as wired to the widgets. -/
inductive Op where
  | add (name tag : String) (qty : Int)
  | plus (key : String)
  | minus (key : String)
  | setQty (key : String) (qty : Int)
  | retag (key newTag : String)
  | remove (key : String)
  | clear
  | load (items : List TemplateItem) (firstCat : String)

def applyOp (s : Store) : Op → Store
  | .add name tag qty => add_item_cb s name tag qty
  | .plus key => plus_cb s key
  | .minus key => minus_cb s key
  | .setQty key q => set_qty_cb s key q
  | .retag key t => tag_change_cb s key t
  | .remove key => del_cb s key
  | .clear => clear_cb s
  | .load items firstCat => load_template_into_inventory items firstCat

/-
  The constraints the widgets enforce on operation inputs: both
  quantity inputs are st.number_input with min_value=0 (lines 235 and
  264), so the values handed to the callbacks are never negative.
-/
def widget_ok : Op → Bool
  | .add _ _ qty => decide (0 ≤ qty)
  | .setQty _ qty => decide (0 ≤ qty)
  | _ => true

def run (s : Store) (ops : List Op) : Store := ops.foldl applyOp s

/- All stored quantities are non-negative. -/
abbrev NonNeg (s : Store) : Prop := ∀ kv ∈ s, 0 ≤ kv.2

/- The read-only export of the store: (name, tag, qty) triples. -/
def snapshot (s : Store) : List (String × String × Int) :=
  s.map (fun kv => (nameOfKey kv.1, tagOfKey kv.1, kv.2))

/-
  Report renderer of send_email (lines 112-147).  A bucket collects
  the (name, qty) pairs of one tag; `grouped` is the Python dict from
  tag to bucket, again an insertion-ordered association list.
-/
abbrev Bucket := List (String × Int)

abbrev Grouped := List (String × Bucket)

def glookup : Grouped → String → Option Bucket
  | [], _ => none
  | tb :: rest, tag => if tb.1 = tag then some tb.2 else glookup rest tag

/- grouped.get(cat) with both None and [] treated as empty. -/
def bucketGet (g : Grouped) (tag : String) : Bucket := (glookup g tag).getD []

/-
  Line 113: grouped = {cat: [] for cat in categories}.  A repeated
  category overwrites its (identical, empty) bucket, so only the
  first position of each distinct category survives.
-/
def emptyBuckets (categories : List String) : Grouped :=
  categories.foldl
    (fun g c => if (glookup g c).isSome then g else g ++ [(c, [])])
    []

/- grouped.setdefault(tag, []).append((name, qty)). -/
def bucketAppend : Grouped → String → String × Int → Grouped
  | [], tag, e => [(tag, [e])]
  | tb :: rest, tag, e =>
    if tb.1 = tag then (tb.1, tb.2 ++ [e]) :: rest
    else tb :: bucketAppend rest tag e

/-
  Loop body of lines 114-116: name, tag = split_key(k);
  grouped.setdefault(tag, []).append((name, v["qty"])).
-/
def groupStep (g : Grouped) (kv : String × Int) : Grouped :=
  bucketAppend g (tagOfKey kv.1) (nameOfKey kv.1, kv.2)

/-
  Lines 113-116: seed the buckets with the configured categories and
  distribute every inventory entry into the bucket of its tag.
-/
def buildGrouped (inv : List (String × Int)) (categories : List String) : Grouped :=
  inv.foldl groupStep (emptyBuckets categories)

/-
  Lines 120 and 132: categories + [c for c in grouped if c not in
  categories] — the display order of the category sections.
-/
def orderedCats (g : Grouped) (categories : List String) : List String :=
  categories ++ (g.map Prod.fst).filter (fun c => decide (c ∉ categories))

/- Python tuple comparison on (name, qty), used by sorted(...). -/
def pairLe (a b : String × Int) : Bool :=
  decide (a.1 < b.1) || (decide (a.1 = b.1) && decide (a.2 ≤ b.2))

def insertPair (e : String × Int) : Bucket → Bucket
  | [] => [e]
  | x :: xs => if pairLe e x then e :: x :: xs else x :: insertPair e xs

/- A stable ascending sort, matching Python sorted on (name,qty). -/
def sortPairs (b : Bucket) : Bucket := b.foldr insertPair []

/- Lines 123-127: the plain-text lines one category contributes. -/
def plainSection (cat : String) (b : Bucket) : List String :=
  ("=== " ++ cat ++ " ===") :: "Item\tQuantity"
    :: (b.map (fun e => e.1 ++ "\t" ++ toString e.2) ++ [""])

/- Lines 135-141: the HTML rows one category contributes. -/
def htmlSection (cat : String) (b : Bucket) : List String :=
  ("<tr style=\x27background:#f3f3f3;font-weight:bold;\x27><td colspan=\x272\x27 style=\x27padding:6px 12px\x27>"
      ++ cat ++ "</td></tr>")
    :: b.map (fun e =>
        "<tr><td style=\x27padding:4px 12px\x27>" ++ e.1
          ++ "</td><td align=\x27right\x27>" ++ toString e.2 ++ "</td></tr>")

/-
  Lines 119-127: rows_plain, built category by category in display
  order, skipping empty buckets and sorting each bucket.
-/
def rows_plain (inv : List (String × Int)) (categories : List String) : List String :=
  let g := buildGrouped inv categories
  (orderedCats g categories).foldl
    (fun rows cat =>
      let b := bucketGet g cat
      if b = [] then rows else rows ++ plainSection cat (sortPairs b))
    []

/- Lines 131-141: rows_html, same traversal producing table rows. -/
def rows_html (inv : List (String × Int)) (categories : List String) : List String :=
  let g := buildGrouped inv categories
  (orderedCats g categories).foldl
    (fun rows cat =>
      let b := bucketGet g cat
      if b = [] then rows else rows ++ htmlSection cat (sortPairs b))
    []

/- The category headers actually emitted, in order (both forms). -/
def sectionTags (inv : List (String × Int)) (categories : List String) : List String :=
  let g := buildGrouped inv categories
  (orderedCats g categories).filter (fun c => decide (bucketGet g c ≠ []))

/- The (name, qty) pairs of the entries carrying a given tag. -/
def entriesWithTag (inv : List (String × Int)) (c : String) : Bucket :=
  inv.filterMap (fun kv =>
    if tagOfKey kv.1 = c then some (nameOfKey kv.1, kv.2) else none)

/- The (name, qty) pairs of all entries, in store order. -/
def entryList (inv : List (String × Int)) : Bucket :=
  inv.map (fun kv => (nameOfKey kv.1, kv.2))

/- One step of collecting unrecognized tags in first-seen order. -/
def extraStep (categories : List String) (acc : List String)
    (kv : String × Int) : List String :=
  let t := tagOfKey kv.1
  if t ∈ categories ∨ t ∈ acc then acc else acc ++ [t]

/- Tags of the store entries in first-seen order, configured ones excluded. -/
def extraTags (inv : List (String × Int)) (categories : List String) : List String :=
  inv.foldl (extraStep categories) []

/- Accumulate a key into the dict key order: append it if unseen. -/
def addNew (ks : List String) (t : String) : List String :=
  if t ∈ ks then ks else ks ++ [t]

/-
  Lines 33-39: SMTP_USER / SMTP_PASS resolve to None when configured
  nowhere; a falsy value (None or "") only triggers st.warning.
-/
def credsPresent (user pw : Option String) : Bool :=
  decide (user.getD "" ≠ "") && decide (pw.getD "" ≠ "")

/-
  Line 294: ready = bool(recipient.strip()) and any(v["qty"] > 0 for
  v in inventory.values()).
-/
def ready_flag (recipient : String) (inv : Store) : Bool :=
  decide (strip recipient ≠ "") && inv.any (fun kv => decide (0 < kv.2))

/-
  Line 296: the send button is rendered with disabled = not ready.
  The credential values are in scope but are not consulted.
-/
def send_button_enabled (_user _pw : Option String)
    (recipient : String) (inv : Store) : Bool :=
  ready_flag recipient inv

/-
  Helper lemmas about the codec.
-/

theorem rsplitLast_of_no_sep (l : List Char) (h : hasSepAux l = false) :
    rsplitLast l = none := by
  induction l with
  | nil => rfl
  | cons c rest ih =>
    simp only [hasSepAux, Bool.or_eq_false_iff, decide_eq_false_iff_not] at h
    simp only [rsplitLast, ih h.2]
    rw [if_neg h.1]

theorem rsplitLast_append (n t : List Char) (ht : hasSepAux t = false)
    (hh : t.head? ≠ some '~') :
    rsplitLast (n ++ sepL ++ t) = some (n, t) := by
  induction n with
  | nil =>
    have h0 : rsplitLast t = none := rsplitLast_of_no_sep t ht
    have hc1 : ('~' :: t).take 3 ≠ sepL := by
      intro hc
      cases t with
      | nil => simp [sepL] at hc
      | cons a t' =>
        simp only [List.take_succ_cons, sepL, List.cons.injEq] at hc
        exact hh (by simp [hc.2.1])
    have hc2 : ('~' :: '~' :: t).take 3 ≠ sepL := by
      intro hc
      cases t with
      | nil => simp [sepL] at hc
      | cons a t' =>
        simp only [List.take_succ_cons, sepL, List.cons.injEq] at hc
        exact hh (by simp [hc.2.2.1])
    have hc3 : ('~' :: '~' :: '~' :: t).take 3 = sepL := by
      cases t <;> simp [sepL]
    show rsplitLast ('~' :: '~' :: '~' :: t) = some ([], t)
    simp only [rsplitLast, h0, if_neg hc1, if_neg hc2, if_pos hc3]
    simp
  | cons c m ih =>
    show rsplitLast (c :: (m ++ sepL ++ t)) = some (c :: m, t)
    simp only [rsplitLast, ih]

theorem rsplitLast_eq_append (d l r : List Char)
    (h : rsplitLast d = some (l, r)) : d = l ++ sepL ++ r := by
  induction d generalizing l r with
  | nil => simp [rsplitLast] at h
  | cons c rest ih =>
    simp only [rsplitLast] at h
    cases hrec : rsplitLast rest with
    | some p =>
      rw [hrec] at h
      obtain ⟨hl, hr⟩ : c :: p.1 = l ∧ p.2 = r := by
        simpa using h
      have := ih p.1 p.2 (by simpa using hrec)
      rw [← hl, ← hr]
      show c :: rest = (c :: p.1) ++ sepL ++ p.2
      rw [this]
      rfl
    | none =>
      rw [hrec] at h
      by_cases hc : (c :: rest).take 3 = sepL
      · rw [if_pos hc] at h
        obtain ⟨hl, hr⟩ : ([] : List Char) = l ∧ (c :: rest).drop 3 = r := by
          simpa using h
        rw [← hl, ← hr]
        show c :: rest = [] ++ sepL ++ (c :: rest).drop 3
        rw [List.nil_append, ← hc]
        exact (List.take_append_drop 3 (c :: rest)).symm
      · rw [if_neg hc] at h
        simp at h

theorem make_key_data (name tag : String) :
    (make_key name tag).data = stripChars name.data ++ sepL ++ tag.data := rfl

/-
  Whitespace-trimming lemmas (Python str.strip).
-/

theorem dropWhile_dropWhile (p : α → Bool) (l : List α) :
    (l.dropWhile p).dropWhile p = l.dropWhile p := by
  induction l with
  | nil => rfl
  | cons c rest ih =>
    by_cases hp : p c = true
    · simp [List.dropWhile_cons, hp, ih]
    · simp [List.dropWhile_cons, hp]

theorem exists_dropWhile_append (p : α → Bool) (l : List α) :
    ∃ u, l = u ++ l.dropWhile p := by
  induction l with
  | nil => exact ⟨[], rfl⟩
  | cons c rest ih =>
    by_cases hp : p c = true
    · obtain ⟨u, hu⟩ := ih
      exact ⟨c :: u, by simp [List.dropWhile_cons, hp, ← hu]⟩
    · exact ⟨[], by simp [List.dropWhile_cons, hp]⟩

theorem length_dropWhile_le (p : α → Bool) (l : List α) :
    (l.dropWhile p).length ≤ l.length := by
  induction l with
  | nil => simp
  | cons c rest ih =>
    by_cases hp : p c = true
    · simp only [List.dropWhile_cons, hp, if_true]
      exact Nat.le_succ_of_le ih
    · simp [List.dropWhile_cons, hp]

theorem dropWhile_eq_self_of_append (p : α → Bool) (m rest : List α)
    (h : (m ++ rest).dropWhile p = m ++ rest) : m.dropWhile p = m := by
  cases m with
  | nil => rfl
  | cons c m' =>
    by_cases hp : p c = true
    · exfalso
      rw [List.cons_append, List.dropWhile_cons, if_pos hp] at h
      have hlen := length_dropWhile_le p (m' ++ rest)
      rw [h] at hlen
      simp at hlen
    · simp [List.dropWhile_cons, hp]

theorem stripChars_idem (l : List Char) :
    stripChars (stripChars l) = stripChars l := by
  unfold stripChars
  set A := l.dropWhile isWS with hA
  have hAd : A.dropWhile isWS = A := dropWhile_dropWhile isWS l
  set m := (A.reverse.dropWhile isWS).reverse with hm
  have hmd : m.dropWhile isWS = m := by
    obtain ⟨u, hu⟩ := exists_dropWhile_append isWS A.reverse
    have hdec : A = m ++ u.reverse := by
      have := congrArg List.reverse hu
      rw [List.reverse_reverse, List.reverse_append] at this
      rw [this, hm]
    apply dropWhile_eq_self_of_append isWS m u.reverse
    rw [← hdec, hAd]
  rw [hmd]
  have : m.reverse.dropWhile isWS = m.reverse := by
    rw [hm, List.reverse_reverse]
    exact dropWhile_dropWhile isWS A.reverse
  rw [this, hm, List.reverse_reverse]

theorem strip_idem (s : String) : strip (strip s) = strip s :=
  congrArg String.mk (stripChars_idem s.data)

/-
  Claim theorems: C4, C7, C8 (composite key codec).
-/

/--
C4 counterexample: the round trip fails as universally stated.  With
name "a" and tag "~b" — a tag that does not contain the separator
substring "~~~" — the key is "a~~~~b" and splitting at the last
occurrence of "~~~" returns ("a~", "b"), not ("a", "~b").
-/
theorem c4_counterexample :
    strip "a" ≠ "" ∧ hasSep "~b" = false
      ∧ split_key (make_key "a" "~b") = ["a~", "b"]
      ∧ split_key (make_key "a" "~b") ≠ [strip "a", "~b"] := by decide

/--
C4 (amended): for every name that is non-empty after trimming and
every tag that neither contains the separator substring "~~~" nor
starts with the separator character "~", decoding the encoded key
recovers exactly (trimmed name, tag); decode splits on the last
separator occurrence, so separators inside the name are harmless.
-/
theorem c4_roundtrip_amended (name tag : String) (h1 : strip name ≠ "")
    (h2 : hasSep tag = false) (h3 : tag.data.head? ≠ some '~') :
    split_key (make_key name tag) = [strip name, tag] := by
  have hr : rsplitLast (make_key name tag).data
      = some (stripChars name.data, tag.data) := by
    rw [make_key_data]
    exact rsplitLast_append _ _ h2 h3
  simp only [split_key, hr]
  rfl

/--
C4 witness: the amended round trip at name "Muffin", tag "Cafe".
-/
theorem c4_witness :
    strip "Muffin" ≠ "" ∧ hasSep "Cafe" = false
      ∧ "Cafe".data.head? ≠ some '~'
      ∧ split_key (make_key "Muffin" "Cafe") = [strip "Muffin", "Cafe"] :=
  ⟨by decide, by decide, by decide,
    c4_roundtrip_amended "Muffin" "Cafe" (by decide) (by decide) (by decide)⟩

/--
C7 counterexample: with a name that is empty after trimming nothing
fails: make_key succeeds and returns the well-formed key "~~~Cafe"
(which even decodes), and add_item_cb silently leaves the store
unchanged — no InvalidInputError exists anywhere in the program.
-/
theorem c7_counterexample :
    strip " " = "" ∧ make_key " " "Cafe" = "~~~Cafe"
      ∧ split_key "~~~Cafe" = ["", "Cafe"]
      ∧ add_item_cb [] " " "Cafe" 5 = ([] : Store) := by decide

/--
C7 (amended): for every name that is empty after trimming, the add
callback is a silent no-op: the store is left completely unchanged,
but no error is raised and key encoding itself never fails.
-/
theorem c7_empty_name_noop (s : Store) (nameInput tag : String) (qty : Int)
    (h : strip nameInput = "") : add_item_cb s nameInput tag qty = s := by
  simp [add_item_cb, h]

/--
C7 witness: adding with a whitespace-only name leaves a concrete
store untouched.
-/
theorem c7_witness :
    strip "  " = ""
      ∧ add_item_cb [("Biscotti~~~Cafe", 1)] "  " "Market" 7
          = [("Biscotti~~~Cafe", 1)] :=
  ⟨by decide, c7_empty_name_noop _ _ _ _ (by decide)⟩

/--
C8 counterexample: on a key without the separator, split_key does not
fail with MalformedKeyError — it succeeds and returns the one-element
list [key] (Python rsplit semantics), which is not a (name, tag) pair.
-/
theorem c8_counterexample :
    hasSep "abc" = false ∧ split_key "abc" = ["abc"]
      ∧ (split_key "abc").length = 1 := by decide

/--
C8 (amended): for every key that does not contain the separator
substring, split_key returns the singleton [key] without signalling
any error; callers that unpack the result as a pair then crash with a
generic unpacking error, and the template loader never decodes keys
at all (it only drops rows lacking a truthy name).
-/
theorem c8_no_sep_singleton (key : String) (h : hasSep key = false) :
    split_key key = [key] := by
  simp only [split_key, rsplitLast_of_no_sep key.data h]

/--
C8 witness: the amended behaviour at the separator-free key "PBJ".
-/
theorem c8_witness : hasSep "PBJ" = false ∧ split_key "PBJ" = ["PBJ"] :=
  ⟨by decide, c8_no_sep_singleton "PBJ" (by decide)⟩

/-
  Helper lemmas about the store operations.
-/

theorem lookupQty_eq_none (s : Store) (k : String)
    (h : k ∉ s.map Prod.fst) : lookupQty s k = none := by
  induction s with
  | nil => rfl
  | cons kv rest ih =>
    simp only [List.map_cons, List.mem_cons] at h
    push_neg at h
    simp only [lookupQty]
    rw [if_neg (fun hc => h.1 hc.symm)]
    exact ih h.2

theorem lookupQty_mem (s : Store) (k : String) (v : Int)
    (h : lookupQty s k = some v) : (k, v) ∈ s := by
  induction s with
  | nil => simp [lookupQty] at h
  | cons kv rest ih =>
    simp only [lookupQty] at h
    by_cases hc : kv.1 = k
    · rw [if_pos hc] at h
      have hv : kv.2 = v := by simpa using h
      have : kv = (k, v) := by rw [← hc, ← hv]
      rw [← this]
      exact List.mem_cons_self _ _
    · rw [if_neg hc] at h
      exact List.mem_cons_of_mem _ (ih h)

theorem lookup_setdefaultAdd_self (s : Store) (k : String) (q : Int) :
    lookupQty (setdefaultAdd s k q) k
      = some ((lookupQty s k).getD 0 + q) := by
  induction s with
  | nil => simp [setdefaultAdd, lookupQty]
  | cons kv rest ih =>
    by_cases hc : kv.1 = k
    · simp [setdefaultAdd, lookupQty, hc]
    · simp [setdefaultAdd, lookupQty, hc, ih]

theorem lookup_setdefaultAdd_other (s : Store) (k k' : String) (q : Int)
    (h : k' ≠ k) : lookupQty (setdefaultAdd s k q) k' = lookupQty s k' := by
  induction s with
  | nil =>
    simp only [setdefaultAdd, lookupQty]
    rw [if_neg (fun hc => h hc.symm)]
  | cons kv rest ih =>
    by_cases hc : kv.1 = k
    · simp only [setdefaultAdd, if_pos hc, lookupQty]
      by_cases hc' : kv.1 = k'
      · exact absurd (hc' ▸ hc) h
      · rw [if_neg hc', if_neg hc']
    · simp only [setdefaultAdd, if_neg hc, lookupQty]
      by_cases hc' : kv.1 = k'
      · rw [if_pos hc', if_pos hc']
      · rw [if_neg hc', if_neg hc', ih]

theorem mem_keys_setdefaultAdd (s : Store) (k : String) (q : Int) (x : String) :
    x ∈ (setdefaultAdd s k q).map Prod.fst
      ↔ x ∈ s.map Prod.fst ∨ x = k := by
  induction s with
  | nil => simp [setdefaultAdd]
  | cons kv rest ih =>
    by_cases hc : kv.1 = k
    · simp only [setdefaultAdd, if_pos hc, List.map_cons, List.mem_cons, ih]
      constructor
      · rintro (hx | hx)
        · exact Or.inl (Or.inl hx)
        · exact Or.inl (Or.inr hx)
      · rintro ((hx | hx) | hx)
        · exact Or.inl hx
        · exact Or.inr hx
        · exact Or.inl (hx.trans hc.symm)
    · simp only [setdefaultAdd, if_neg hc, List.map_cons, List.mem_cons, ih]
      tauto

theorem nodup_setdefaultAdd (s : Store) (k : String) (q : Int)
    (h : keysNodup s) : keysNodup (setdefaultAdd s k q) := by
  induction s with
  | nil => simp [setdefaultAdd, keysNodup]
  | cons kv rest ih =>
    simp only [keysNodup, List.map_cons, List.nodup_cons] at h
    by_cases hc : kv.1 = k
    · simpa [keysNodup, setdefaultAdd, if_pos hc] using h
    · have := ih h.2
      simp only [keysNodup, setdefaultAdd, if_neg hc, List.map_cons,
        List.nodup_cons]
      refine ⟨?_, this⟩
      rw [mem_keys_setdefaultAdd]
      rintro (hx | hx)
      · exact h.1 hx
      · exact hc hx

theorem countKey_eq_zero (s : Store) (k : String)
    (h : k ∉ s.map Prod.fst) : countKey s k = 0 := by
  induction s with
  | nil => rfl
  | cons kv rest ih =>
    simp only [List.map_cons, List.mem_cons] at h
    push_neg at h
    simp only [countKey, List.filter_cons]
    rw [if_neg (by simpa using fun hc => h.1 hc.symm)]
    exact ih h.2

theorem countKey_setdefaultAdd (s : Store) (k : String) (q : Int)
    (h : keysNodup s) : countKey (setdefaultAdd s k q) k = 1 := by
  induction s with
  | nil => simp [setdefaultAdd, countKey]
  | cons kv rest ih =>
    simp only [keysNodup, List.map_cons, List.nodup_cons] at h
    by_cases hc : kv.1 = k
    · simp only [setdefaultAdd, if_pos hc, countKey, List.filter_cons]
      rw [if_pos (by simpa using hc)]
      have : countKey rest k = 0 := countKey_eq_zero rest k (hc ▸ h.1)
      simp only [countKey] at this
      simp [this]
    · simp only [setdefaultAdd, if_neg hc, countKey, List.filter_cons]
      rw [if_neg (by simpa using hc)]
      exact ih h.2

theorem lookup_updateKey_self (s : Store) (k : String) (f : Int → Int) :
    lookupQty (updateKey s k f) k = (lookupQty s k).map f := by
  induction s with
  | nil => simp [updateKey, lookupQty]
  | cons kv rest ih =>
    by_cases hc : kv.1 = k
    · simp [updateKey, lookupQty, hc]
    · simp [updateKey, lookupQty, hc, ih]

theorem mem_popKey (s : Store) (k : String) (kv : String × Int)
    (h : kv ∈ popKey s k) : kv ∈ s := by
  induction s with
  | nil => simpa [popKey] using h
  | cons kv0 rest ih =>
    by_cases hc : kv0.1 = k
    · rw [popKey, if_pos hc] at h
      exact List.mem_cons_of_mem _ h
    · rw [popKey, if_neg hc] at h
      rcases List.mem_cons.mp h with hx | hx
      · exact hx ▸ List.mem_cons_self _ _
      · exact List.mem_cons_of_mem _ (ih hx)

theorem mem_keys_popKey (s : Store) (k : String) (x : String)
    (h : x ∈ (popKey s k).map Prod.fst) : x ∈ s.map Prod.fst := by
  simp only [List.mem_map] at h ⊢
  obtain ⟨kv, hkv, hx⟩ := h
  exact ⟨kv, mem_popKey s k kv hkv, hx⟩

theorem nodup_popKey (s : Store) (k : String)
    (h : keysNodup s) : keysNodup (popKey s k) := by
  induction s with
  | nil => simpa [popKey] using h
  | cons kv rest ih =>
    simp only [keysNodup, List.map_cons, List.nodup_cons] at h
    by_cases hc : kv.1 = k
    · rw [popKey, if_pos hc]
      exact h.2
    · rw [popKey, if_neg hc]
      simp only [keysNodup, List.map_cons, List.nodup_cons]
      exact ⟨fun hx => h.1 (mem_keys_popKey rest k kv.1 hx), ih h.2⟩

theorem lookup_popKey_none (s : Store) (k : String)
    (h : keysNodup s) : lookupQty (popKey s k) k = none := by
  induction s with
  | nil => rfl
  | cons kv rest ih =>
    simp only [keysNodup, List.map_cons, List.nodup_cons] at h
    by_cases hc : kv.1 = k
    · rw [popKey, if_pos hc]
      exact lookupQty_eq_none rest k (hc ▸ h.1)
    · rw [popKey, if_neg hc]
      simp only [lookupQty]
      rw [if_neg hc]
      exact ih h.2

theorem lookup_popKey_other (s : Store) (k k' : String)
    (h : k' ≠ k) : lookupQty (popKey s k) k' = lookupQty s k' := by
  induction s with
  | nil => rfl
  | cons kv rest ih =>
    by_cases hc : kv.1 = k
    · rw [popKey, if_pos hc]
      have hnot : ¬(kv.1 = k') := fun hx => h (by rw [← hx]; exact hc)
      simp only [lookupQty]
      rw [if_neg hnot]
    · rw [popKey, if_neg hc]
      simp only [lookupQty]
      by_cases hc' : kv.1 = k'
      · rw [if_pos hc', if_pos hc']
      · rw [if_neg hc', if_neg hc', ih]

/-
  Claim theorems: C1 (add merges), C3 (retag merges), C6 (clear).
-/

/--
C1 counterexample: the merge property fails as universally stated on
names that are empty after trimming — both adds are silent no-ops, so
zero (not exactly one) entries exist for the composite key afterward.
-/
theorem c1_counterexample :
    strip " " = ""
      ∧ add_item_cb (add_item_cb [] " " "Cafe" 1) " " "Cafe" 2 = ([] : Store)
      ∧ countKey ([] : Store) (make_key " " "Cafe") = 0 := by decide

/--
C1 (amended): for every name that is non-empty after trimming, every
tag and quantities q1 and q2, adding (name, tag, q1) and then
(name, tag, q2) to a store with distinct keys leaves exactly one
entry under make_key name tag, whose quantity is the prior quantity
(0 when absent) plus q1 plus q2 — summed, never overwritten.
-/
theorem c1_merge_amended (s : Store) (name tag : String) (q1 q2 : Int)
    (h1 : strip name ≠ "") (h2 : keysNodup s) :
    lookupQty (add_item_cb (add_item_cb s name tag q1) name tag q2)
        (make_key name tag)
      = some ((lookupQty s (make_key name tag)).getD 0 + q1 + q2)
      ∧ countKey (add_item_cb (add_item_cb s name tag q1) name tag q2)
          (make_key name tag) = 1 := by
  have hk : make_key (strip name) tag = make_key name tag := by
    rw [make_key, make_key, strip_idem]
  have ha : ∀ (s' : Store) (q : Int),
      add_item_cb s' name tag q = setdefaultAdd s' (make_key name tag) q := by
    intro s' q
    show (if strip name = "" then s'
      else setdefaultAdd s' (make_key (strip name) tag) q) = _
    rw [if_neg h1, hk]
  rw [ha, ha]
  constructor
  · rw [lookup_setdefaultAdd_self, lookup_setdefaultAdd_self]
    simp
  · exact countKey_setdefaultAdd _ _ _ (nodup_setdefaultAdd _ _ _ h2)

/--
C1 witness: the spec example — add("Muffin","Cafe",3) then
add("Muffin","Cafe",2) on the empty store yields the single entry
("Muffin~~~Cafe", 5).
-/
theorem c1_witness :
    strip "Muffin" ≠ "" ∧ keysNodup ([] : Store)
      ∧ (lookupQty (add_item_cb (add_item_cb [] "Muffin" "Cafe" 3) "Muffin" "Cafe" 2)
            (make_key "Muffin" "Cafe")
          = some ((lookupQty [] (make_key "Muffin" "Cafe")).getD 0 + 3 + 2)
          ∧ countKey (add_item_cb (add_item_cb [] "Muffin" "Cafe" 3) "Muffin" "Cafe" 2)
              (make_key "Muffin" "Cafe") = 1)
      ∧ add_item_cb (add_item_cb [] "Muffin" "Cafe" 3) "Muffin" "Cafe" 2
          = [("Muffin~~~Cafe", 5)] :=
  ⟨by decide, by decide,
    c1_merge_amended [] "Muffin" "Cafe" 3 2 (by decide) (by decide),
    by decide⟩

/--
C3: retagging an existing entry (the handler fires only for a tag
different from the current one) removes the source key, adds the
source quantity onto the destination key make_key(name, newTag) —
summing when the destination existed, else creating it with exactly
the moved quantity — and preserves key uniqueness.  Hypotheses: the
key is present, keys are distinct, the key splits as (l, r) with l
already trimmed (every key built by make_key has a trimmed name
part), and the new tag differs from the current tag r.
-/
theorem c3_retag_merge (s : Store) (key newTag : String) (q : Int)
    (l r : List Char)
    (h1 : keysNodup s) (h2 : lookupQty s key = some q)
    (h3 : rsplitLast key.data = some (l, r))
    (h4 : stripChars l = l) (h5 : newTag ≠ String.mk r) :
    lookupQty (tag_change_cb s key newTag) key = none
      ∧ lookupQty (tag_change_cb s key newTag) (make_key (String.mk l) newTag)
          = some ((lookupQty s (make_key (String.mk l) newTag)).getD 0 + q)
      ∧ keysNodup (tag_change_cb s key newTag) := by
  have hsplit : split2 key = (String.mk l, String.mk r) := by
    simp only [split2, h3]
  have heq : tag_change_cb s key newTag
      = popKey (setdefaultAdd s (make_key (String.mk l) newTag) q) key := by
    simp only [tag_change_cb, hsplit, h2, Option.getD_some]
    rw [if_neg h5]
  have hnk : make_key (String.mk l) newTag ≠ key := by
    intro hc
    have hdata := congrArg String.data hc
    rw [make_key_data] at hdata
    have hk : key.data = l ++ sepL ++ r := rsplitLast_eq_append _ _ _ h3
    rw [hk] at hdata
    have hdata0 : stripChars l ++ sepL ++ newTag.data = l ++ sepL ++ r := hdata
    rw [h4] at hdata0
    have hlast : newTag.data = r := List.append_cancel_left hdata0
    exact h5 (by rw [← hlast])
  rw [heq]
  refine ⟨?_, ?_, ?_⟩
  · exact lookup_popKey_none _ _ (nodup_setdefaultAdd _ _ _ h1)
  · rw [lookup_popKey_other _ _ _ hnk, lookup_setdefaultAdd_self]
  · exact nodup_popKey _ _ (nodup_setdefaultAdd _ _ _ h1)

/--
C3 witness: the spec example — from (A,"Cafe")=3 and (A,"Market")=2,
retagging the first entry to "Market" yields the single entry
(A,"Market")=5 and no (A,"Cafe") entry remains.
-/
theorem c3_witness :
    keysNodup ([("A~~~Cafe", 3), ("A~~~Market", 2)] : Store)
      ∧ lookupQty [("A~~~Cafe", 3), ("A~~~Market", 2)] "A~~~Cafe" = some 3
      ∧ rsplitLast ("A~~~Cafe").data = some (['A'], ['C', 'a', 'f', 'e'])
      ∧ stripChars ['A'] = ['A']
      ∧ ("Market" : String) ≠ String.mk ['C', 'a', 'f', 'e']
      ∧ (lookupQty (tag_change_cb [("A~~~Cafe", 3), ("A~~~Market", 2)]
            "A~~~Cafe" "Market") "A~~~Cafe" = none
          ∧ lookupQty (tag_change_cb [("A~~~Cafe", 3), ("A~~~Market", 2)]
              "A~~~Cafe" "Market") (make_key (String.mk ['A']) "Market")
            = some ((lookupQty [("A~~~Cafe", 3), ("A~~~Market", 2)]
                (make_key (String.mk ['A']) "Market")).getD 0 + 3)
          ∧ keysNodup (tag_change_cb [("A~~~Cafe", 3), ("A~~~Market", 2)]
              "A~~~Cafe" "Market"))
      ∧ tag_change_cb [("A~~~Cafe", 3), ("A~~~Market", 2)] "A~~~Cafe" "Market"
          = [("A~~~Market", 5)] :=
  ⟨by decide, by decide, by decide, by decide, by decide,
    c3_retag_merge [("A~~~Cafe", 3), ("A~~~Market", 2)] "A~~~Cafe" "Market" 3
      ['A'] ['C', 'a', 'f', 'e'] (by decide) (by decide) (by decide)
      (by decide) (by decide),
    by decide⟩

/--
C6: for every prior store state, the clear button empties the store,
so a subsequent snapshot yields the empty list of entries.
-/
theorem c6_clear_snapshot (s : Store) :
    applyOp s Op.clear = [] ∧ snapshot (applyOp s Op.clear) = [] :=
  ⟨rfl, rfl⟩

/-
  Non-negativity preservation lemmas (claim C2).
-/

theorem nonneg_setdefaultAdd (s : Store) (k : String) (q : Int)
    (hq : 0 ≤ q) : NonNeg s → NonNeg (setdefaultAdd s k q) := by
  induction s with
  | nil =>
    intro _ kv hkv
    simp only [setdefaultAdd, List.mem_singleton] at hkv
    rw [hkv]
    exact hq
  | cons kv0 rest ih =>
    intro hs
    have h0 : 0 ≤ kv0.2 := hs kv0 (List.mem_cons_self _ _)
    have hrest : NonNeg rest := fun x hx => hs x (List.mem_cons_of_mem _ hx)
    by_cases hc : kv0.1 = k
    · intro kv hkv
      simp only [setdefaultAdd, if_pos hc] at hkv
      rcases List.mem_cons.mp hkv with hx | hx
      · rw [hx]
        exact add_nonneg h0 hq
      · exact hrest kv hx
    · intro kv hkv
      simp only [setdefaultAdd, if_neg hc] at hkv
      rcases List.mem_cons.mp hkv with hx | hx
      · rw [hx]
        exact h0
      · exact ih hrest kv hx

theorem nonneg_updateKey (s : Store) (k : String) (f : Int → Int)
    (hf : ∀ v : Int, 0 ≤ v → 0 ≤ f v) : NonNeg s → NonNeg (updateKey s k f) := by
  induction s with
  | nil => intro _ kv hkv; simp [updateKey] at hkv
  | cons kv0 rest ih =>
    intro hs
    have h0 : 0 ≤ kv0.2 := hs kv0 (List.mem_cons_self _ _)
    have hrest : NonNeg rest := fun x hx => hs x (List.mem_cons_of_mem _ hx)
    by_cases hc : kv0.1 = k
    · intro kv hkv
      simp only [updateKey, if_pos hc] at hkv
      rcases List.mem_cons.mp hkv with hx | hx
      · rw [hx]
        exact hf kv0.2 h0
      · exact hrest kv hx
    · intro kv hkv
      simp only [updateKey, if_neg hc] at hkv
      rcases List.mem_cons.mp hkv with hx | hx
      · rw [hx]
        exact h0
      · exact ih hrest kv hx

theorem nonneg_popKey (s : Store) (k : String) :
    NonNeg s → NonNeg (popKey s k) :=
  fun hs kv hkv => hs kv (mem_popKey s k kv hkv)

theorem mem_setKey (s : Store) (k : String) (v : Int) (kv : String × Int)
    (h : kv ∈ setKey s k v) : kv ∈ s ∨ kv = (k, v) := by
  induction s with
  | nil =>
    simp only [setKey, List.mem_singleton] at h
    exact Or.inr h
  | cons kv0 rest ih =>
    by_cases hc : kv0.1 = k
    · rw [setKey, if_pos hc] at h
      rcases List.mem_cons.mp h with hx | hx
      · exact Or.inr (by rw [hx, hc])
      · exact Or.inl (List.mem_cons_of_mem _ hx)
    · rw [setKey, if_neg hc] at h
      rcases List.mem_cons.mp h with hx | hx
      · exact Or.inl (hx ▸ List.mem_cons_self _ _)
      · rcases ih hx with hy | hy
        · exact Or.inl (List.mem_cons_of_mem _ hy)
        · exact Or.inr hy

theorem nonneg_setKey (s : Store) (k : String) (v : Int)
    (hv : 0 ≤ v) (hs : NonNeg s) : NonNeg (setKey s k v) := by
  intro kv hkv
  rcases mem_setKey s k v kv hkv with hx | hx
  · exact hs kv hx
  · rw [hx]
    exact hv

theorem nonneg_load_foldl (firstCat : String) (items : List TemplateItem) :
    ∀ s : Store, NonNeg s → NonNeg (items.foldl (load_step firstCat) s) := by
  induction items with
  | nil => exact fun s hs => hs
  | cons itm rest ih =>
    intro s hs
    rw [List.foldl_cons]
    apply ih
    by_cases hn : itm.name.getD "" = ""
    · simpa [load_step, hn] using hs
    · show NonNeg (load_step firstCat s itm)
      unfold load_step
      rw [if_neg hn]
      exact nonneg_setKey _ _ _ (le_refl 0) hs

theorem nonneg_load (items : List TemplateItem) (firstCat : String) :
    NonNeg (load_template_into_inventory items firstCat) :=
  nonneg_load_foldl firstCat items [] (fun kv hkv => absurd hkv (List.not_mem_nil kv))

theorem lookup_getD_nonneg (s : Store) (k : String) (hs : NonNeg s) :
    0 ≤ (lookupQty s k).getD 0 := by
  cases h : lookupQty s k with
  | none => simp
  | some v =>
    simp only [Option.getD_some]
    exact hs (k, v) (lookupQty_mem s k v h)

theorem nonneg_applyOp (s : Store) (op : Op) (hs : NonNeg s)
    (hop : widget_ok op = true) : NonNeg (applyOp s op) := by
  cases op with
  | add name tag qty =>
    have hq : 0 ≤ qty := by simpa [widget_ok] using hop
    show NonNeg (add_item_cb s name tag qty)
    by_cases hn : strip name = ""
    · simpa [add_item_cb, hn] using hs
    · have heq : add_item_cb s name tag qty
          = setdefaultAdd s (make_key (strip name) tag) qty := by
        show (if strip name = "" then s else _) = _
        rw [if_neg hn]
      rw [heq]
      exact nonneg_setdefaultAdd _ _ _ hq hs
  | plus key =>
    exact nonneg_updateKey s key _ (fun v hv => by omega) hs
  | minus key =>
    exact nonneg_updateKey s key _ (fun v _ => le_max_left 0 (v - 1)) hs
  | setQty key q =>
    have hq : 0 ≤ q := by simpa [widget_ok] using hop
    exact nonneg_updateKey s key _ (fun _ _ => hq) hs
  | retag key newTag =>
    show NonNeg (tag_change_cb s key newTag)
    by_cases hg : newTag = (split2 key).2
    · have heq : tag_change_cb s key newTag = s := by
        show (if newTag = (split2 key).2 then s else _) = _
        rw [if_pos hg]
      rw [heq]
      exact hs
    · have heq : tag_change_cb s key newTag
          = popKey (setdefaultAdd s (make_key (split2 key).1 newTag)
              ((lookupQty s key).getD 0)) key := by
        show (if newTag = (split2 key).2 then s else _) = _
        rw [if_neg hg]
      rw [heq]
      exact nonneg_popKey _ _
        (nonneg_setdefaultAdd _ _ _ (lookup_getD_nonneg s key hs) hs)
  | remove key => exact nonneg_popKey s key hs
  | clear => intro kv hkv; exact absurd hkv (List.not_mem_nil kv)
  | load items firstCat => exact nonneg_load items firstCat

theorem nonneg_run (ops : List Op) :
    ∀ s : Store, NonNeg s → (∀ op ∈ ops, widget_ok op = true) →
      NonNeg (run s ops) := by
  induction ops with
  | nil => exact fun s hs _ => hs
  | cons op rest ih =>
    intro s hs hops
    show NonNeg (run (applyOp s op) rest)
    exact ih (applyOp s op)
      (nonneg_applyOp s op hs (hops op (List.mem_cons_self _ _)))
      (fun op' hop' => hops op' (List.mem_cons_of_mem _ hop'))

/--
C2: every state reached from a non-negative store by any sequence of
widget-constrained operations (add, plus, minus, direct quantity
edit, retag, delete, clear, template load) has only non-negative
quantities; and the minus button applied to an entry at quantity 0
leaves that quantity at 0 (max(0, 0 - 1) clamping).
-/
theorem c2_nonneg_reachable (s : Store) (ops : List Op) (k : String)
    (h1 : NonNeg s) (h2 : ∀ op ∈ ops, widget_ok op = true) :
    NonNeg (run s ops)
      ∧ (lookupQty s k = some 0 → lookupQty (minus_cb s k) k = some 0) := by
  refine ⟨nonneg_run ops s h1 h2, ?_⟩
  intro h0
  show lookupQty (updateKey s k (fun q => max 0 (q - 1))) k = some 0
  rw [lookup_updateKey_self, h0]
  decide

/--
C2 witness: a concrete run — an add of 2 and a minus on a
quantity-0 entry — stays non-negative and the 0 entry stays 0.
-/
theorem c2_witness :
    NonNeg ([("PBJ Muffins~~~Cafe", 0)] : Store)
      ∧ (∀ op ∈ ([Op.add "Biscotti" "Cafe" 2,
            Op.minus "PBJ Muffins~~~Cafe"] : List Op), widget_ok op = true)
      ∧ (NonNeg (run [("PBJ Muffins~~~Cafe", 0)]
            [Op.add "Biscotti" "Cafe" 2, Op.minus "PBJ Muffins~~~Cafe"])
          ∧ (lookupQty [("PBJ Muffins~~~Cafe", 0)] "PBJ Muffins~~~Cafe" = some 0 →
              lookupQty (minus_cb [("PBJ Muffins~~~Cafe", 0)] "PBJ Muffins~~~Cafe")
                "PBJ Muffins~~~Cafe" = some 0)) :=
  ⟨by decide, by decide,
    c2_nonneg_reachable [("PBJ Muffins~~~Cafe", 0)]
      [Op.add "Biscotti" "Cafe" 2, Op.minus "PBJ Muffins~~~Cafe"]
      "PBJ Muffins~~~Cafe" (by decide) (by decide)⟩

/-
  Claim theorems: C9 (send gating).
-/

/--
C9 counterexample: with both credentials absent, a state with a
non-empty recipient and one positive quantity still has the send
button enabled — `ready` (line 294) never consults SMTP_USER or
SMTP_PASS, so a send can be triggered without credentials.
-/
theorem c9_counterexample :
    credsPresent none none = false
      ∧ send_button_enabled none none "a@b.c" [("PBJ Muffins~~~Cafe", 2)] = true := by
  decide

/--
C9 (amended): the enabled state of the send button equals "trimmed
recipient non-empty and some entry has positive quantity", for every
credential configuration — missing credentials only trigger the
warning and never disable the send action.
-/
theorem c9_ready_characterization (user pw : Option String)
    (recipient : String) (inv : Store) :
    send_button_enabled user pw recipient inv = true
      ↔ (strip recipient ≠ "" ∧ ∃ kv ∈ inv, 0 < kv.2) := by
  simp [send_button_enabled, ready_flag, List.any_eq_true]

/-
  Template loading lemmas (claim C10).
-/

theorem setKey_ne_nil (s : Store) (k : String) (v : Int) :
    setKey s k v ≠ [] := by
  cases s with
  | nil => simp [setKey]
  | cons kv rest =>
    by_cases hc : kv.1 = k
    · simp [setKey, hc]
    · simp [setKey, hc]

theorem load_foldl_ne_nil (firstCat : String) (items : List TemplateItem) :
    ∀ s : Store, s ≠ [] → items.foldl (load_step firstCat) s ≠ [] := by
  induction items with
  | nil => exact fun s hs => hs
  | cons itm rest ih =>
    intro s hs
    rw [List.foldl_cons]
    apply ih
    unfold load_step
    by_cases hn : itm.name.getD "" = ""
    · rw [if_pos hn]
      exact hs
    · rw [if_neg hn]
      exact setKey_ne_nil _ _ _

theorem load_foldl_ne_nil_of_named (firstCat : String)
    (items : List TemplateItem) :
    ∀ s : Store, (∃ itm ∈ items, itm.name.getD "" ≠ "") →
      items.foldl (load_step firstCat) s ≠ [] := by
  induction items with
  | nil =>
    rintro s ⟨itm, hmem, _⟩
    simp at hmem
  | cons itm rest ih =>
    rintro s ⟨itm', hmem, hname⟩
    rw [List.foldl_cons]
    rcases List.mem_cons.mp hmem with rfl | hmem'
    · apply load_foldl_ne_nil
      unfold load_step
      rw [if_neg hname]
      exact setKey_ne_nil _ _ _
    · exact ih _ ⟨itm', hmem', hname⟩

theorem load_foldl_all_zero (firstCat : String) (items : List TemplateItem) :
    ∀ s : Store, (∀ kv ∈ s, kv.2 = 0) →
      ∀ kv ∈ items.foldl (load_step firstCat) s, kv.2 = 0 := by
  induction items with
  | nil => exact fun s hs => hs
  | cons itm rest ih =>
    intro s hs
    rw [List.foldl_cons]
    apply ih
    intro kv hkv
    unfold load_step at hkv
    by_cases hn : itm.name.getD "" = ""
    · rw [if_pos hn] at hkv
      exact hs kv hkv
    · rw [if_neg hn] at hkv
      rcases mem_setKey _ _ _ _ hkv with hx | hx
      · exact hs kv hx
      · rw [hx]

theorem load_foldl_skips_unnamed (firstCat : String)
    (items : List TemplateItem) :
    ∀ s : Store, items.foldl (load_step firstCat) s
      = (load_template_rows items).foldl (load_step firstCat) s := by
  induction items with
  | nil => exact fun s => rfl
  | cons itm rest ih =>
    intro s
    rw [List.foldl_cons]
    by_cases hn : itm.name.getD "" = ""
    · have hstep : load_step firstCat s itm = s := by
        unfold load_step
        rw [if_pos hn]
      have hfilter : load_template_rows (itm :: rest) = load_template_rows rest := by
        simp [load_template_rows, List.filter_cons, hn]
      rw [hstep, hfilter]
      exact ih s
    · have hfilter : load_template_rows (itm :: rest)
          = itm :: load_template_rows rest := by
        simp [load_template_rows, List.filter_cons, hn]
      rw [hfilter, List.foldl_cons]
      exact ih _

/--
C10: whenever no inventory mapping exists, the active profile
changed, or the mapping is empty, the init guard replaces the store
with the template load; the load seeds every quantity at 0, behaves
identically to loading only the rows with a truthy name (nameless
rows are skipped), defaults a missing tag to the first configured
category, and produces a non-empty store whenever some template row
has a non-empty name — so a cleared store does not stay empty.
-/
theorem c10_init_guard (sess : SessionState) (profile : String)
    (items : List TemplateItem) (firstCat : String)
    (hguard : sess.inventory = none ∨ sess.inventoryProfile ≠ some profile
        ∨ sess.inventory = some []) :
    init_inventory sess profile items firstCat
        = load_template_into_inventory items firstCat
      ∧ (∀ kv ∈ load_template_into_inventory items firstCat, kv.2 = 0)
      ∧ load_template_into_inventory items firstCat
          = load_template_into_inventory (load_template_rows items) firstCat
      ∧ (∀ n : String, n ≠ "" →
          load_template_into_inventory [⟨some n, none⟩] firstCat
            = [(make_key n firstCat, 0)])
      ∧ ((∃ itm ∈ items, itm.name.getD "" ≠ "") →
          load_template_into_inventory items firstCat ≠ []) := by
  refine ⟨?_, ?_, ?_, ?_, ?_⟩
  · unfold init_inventory
    cases hinv : sess.inventory with
    | none => rfl
    | some inv =>
      show (if sess.inventoryProfile ≠ some profile ∨ inv = [] then
          load_template_into_inventory items firstCat else inv)
        = load_template_into_inventory items firstCat
      rcases hguard with h | h | h
      · rw [hinv] at h
        exact absurd h (by simp)
      · rw [if_pos (Or.inl h)]
      · rw [hinv] at h
        have hnil : inv = [] := by simpa using h
        rw [if_pos (Or.inr hnil)]
  · exact load_foldl_all_zero firstCat items []
      (fun kv hkv => absurd hkv (List.not_mem_nil kv))
  · exact load_foldl_skips_unnamed firstCat items []
  · intro n hn
    show load_step firstCat [] ⟨some n, none⟩ = [(make_key n firstCat, 0)]
    unfold load_step
    simp only [Option.getD_some, Option.getD_none]
    rw [if_neg hn]
    rfl
  · exact load_foldl_ne_nil_of_named firstCat items []

/--
C10 witness: an emptied store under the "Why Not Pie" profile is
reseeded from a concrete two-row template (one row nameless), giving
the single zero-quantity entry for the named row.
-/
theorem c10_witness :
    ((SessionState.mk (some []) (some "Why Not Pie")).inventory = none
        ∨ (SessionState.mk (some []) (some "Why Not Pie")).inventoryProfile
            ≠ some "Why Not Pie"
        ∨ (SessionState.mk (some []) (some "Why Not Pie")).inventory = some [])
      ∧ init_inventory (SessionState.mk (some []) (some "Why Not Pie"))
          "Why Not Pie" [⟨some "PBJ Muffins", some "Cafe"⟩, ⟨none, some "Market"⟩]
          "Cafe"
        = load_template_into_inventory
            [⟨some "PBJ Muffins", some "Cafe"⟩, ⟨none, some "Market"⟩] "Cafe"
      ∧ init_inventory (SessionState.mk (some []) (some "Why Not Pie"))
          "Why Not Pie" [⟨some "PBJ Muffins", some "Cafe"⟩, ⟨none, some "Market"⟩]
          "Cafe"
        = [("PBJ Muffins~~~Cafe", 0)] :=
  ⟨Or.inr (Or.inr rfl),
    (c10_init_guard (SessionState.mk (some []) (some "Why Not Pie"))
      "Why Not Pie" [⟨some "PBJ Muffins", some "Cafe"⟩, ⟨none, some "Market"⟩]
      "Cafe" (Or.inr (Or.inr rfl))).1,
    by decide⟩

/-
  Renderer lemmas (claim C5): how the grouped dict relates to the
  entries, category order, and emitted rows.
-/

theorem bucketGet_bucketAppend (g : Grouped) (t : String) (e : String × Int)
    (c : String) :
    bucketGet (bucketAppend g t e) c
      = if c = t then bucketGet g c ++ [e] else bucketGet g c := by
  induction g with
  | nil =>
    by_cases hc : c = t
    · subst hc
      simp [bucketAppend, bucketGet, glookup]
    · simp only [bucketAppend, bucketGet, glookup]
      rw [if_neg (fun hx => hc hx.symm), if_neg hc]
  | cons tb rest ih =>
    by_cases ht : tb.1 = t
    · by_cases hc : tb.1 = c
      · have hct : c = t := hc ▸ ht
        simp only [bucketAppend, if_pos ht, bucketGet, glookup, if_pos hc,
          if_pos hct, Option.getD_some]
      · have hct : ¬(c = t) := fun hx => hc (ht.trans hx.symm)
        simp only [bucketAppend, if_pos ht, bucketGet, glookup, if_neg hc]
        rw [if_neg hct]
    · by_cases hc : tb.1 = c
      · have hct : ¬(c = t) := fun hx => ht (hc.trans hx)
        simp only [bucketAppend, if_neg ht, bucketGet, glookup, if_pos hc]
        rw [if_neg hct]
      · simp only [bucketAppend, if_neg ht, bucketGet, glookup, if_neg hc]
        exact ih

theorem keys_bucketAppend (g : Grouped) (t : String) (e : String × Int) :
    (bucketAppend g t e).map Prod.fst = addNew (g.map Prod.fst) t := by
  induction g with
  | nil => simp [bucketAppend, addNew]
  | cons tb rest ih =>
    by_cases ht : tb.1 = t
    · simp only [bucketAppend, if_pos ht, List.map_cons, addNew]
      rw [if_pos (by simp [ht])]
    · simp only [bucketAppend, if_neg ht, List.map_cons, ih, addNew]
      by_cases hm : t ∈ rest.map Prod.fst
      · rw [if_pos hm, if_pos (List.mem_cons_of_mem _ hm)]
      · have hnotin : ¬(t ∈ tb.1 :: rest.map Prod.fst) := by
          simp only [List.mem_cons]
          push_neg
          exact ⟨fun hx => ht hx.symm, hm⟩
        rw [if_neg hm, if_neg hnotin]
        simp

theorem glookup_append_none (g : Grouped) (c0 : String) (b : Bucket)
    (c : String) (h : glookup g c = none) (hne : c0 ≠ c) :
    glookup (g ++ [(c0, b)]) c = none := by
  induction g with
  | nil =>
    simp only [List.nil_append, glookup]
    rw [if_neg hne]
  | cons tb rest ih =>
    simp only [glookup] at h
    by_cases hc : tb.1 = c
    · rw [if_pos hc] at h
      exact absurd h (by simp)
    · rw [if_neg hc] at h
      simp only [List.cons_append, glookup]
      rw [if_neg hc]
      exact ih h

theorem em_foldl (cats : List String) :
    ∀ g : Grouped, cats.Nodup → (∀ c ∈ cats, glookup g c = none) →
      cats.foldl (fun g c => if (glookup g c).isSome then g else g ++ [(c, [])]) g
        = g ++ cats.map (fun c => (c, [])) := by
  induction cats with
  | nil => intro g _ _; simp
  | cons c cs ih =>
    intro g hnd hnone
    have hc : glookup g c = none := hnone c (List.mem_cons_self _ _)
    have hcs : c ∉ cs := (List.nodup_cons.mp hnd).1
    rw [List.foldl_cons]
    have hstep : (if (glookup g c).isSome then g else g ++ [(c, [])])
        = g ++ [(c, ([] : Bucket))] := by
      rw [hc]
      rfl
    rw [hstep, ih (g ++ [(c, [])]) (List.nodup_cons.mp hnd).2]
    · simp
    · intro c' hc'
      exact glookup_append_none g c [] c'
        (hnone c' (List.mem_cons_of_mem _ hc'))
        (fun hx => hcs (hx ▸ hc'))

theorem emptyBuckets_eq (cats : List String) (h : cats.Nodup) :
    emptyBuckets cats = cats.map (fun c => (c, [])) := by
  unfold emptyBuckets
  rw [em_foldl cats [] h (fun c _ => rfl)]
  simp

theorem glookup_map_pairs (cats : List String) (c : String) :
    glookup (cats.map (fun c => (c, ([] : Bucket)))) c
      = if c ∈ cats then some [] else none := by
  induction cats with
  | nil => simp [glookup]
  | cons a cs ih =>
    by_cases ha : a = c
    · subst ha
      simp [glookup]
    · simp only [List.map_cons, glookup, if_neg ha, ih]
      by_cases hm : c ∈ cs
      · rw [if_pos hm, if_pos (List.mem_cons_of_mem _ hm)]
      · have hna : ¬(c ∈ a :: cs) := by
          simp only [List.mem_cons]
          push_neg
          exact ⟨fun hx => ha hx.symm, hm⟩
        rw [if_neg hm, if_neg hna]

theorem bucketGet_emptyBuckets (cats : List String) (c : String)
    (h : cats.Nodup) : bucketGet (emptyBuckets cats) c = [] := by
  unfold bucketGet
  rw [emptyBuckets_eq cats h, glookup_map_pairs]
  by_cases hm : c ∈ cats
  · rw [if_pos hm]
    rfl
  · rw [if_neg hm]
    rfl

theorem keys_emptyBuckets (cats : List String) (h : cats.Nodup) :
    (emptyBuckets cats).map Prod.fst = cats := by
  rw [emptyBuckets_eq cats h]
  have hgen : ∀ l : List String,
      (l.map (fun c => (c, ([] : Bucket)))).map Prod.fst = l := by
    intro l
    induction l with
    | nil => rfl
    | cons a cs ih =>
      simp only [List.map_cons]
      rw [ih]
  exact hgen cats

theorem bucketGet_group_foldl (inv : List (String × Int)) :
    ∀ (g : Grouped) (c : String),
      bucketGet (inv.foldl groupStep g) c
        = bucketGet g c ++ entriesWithTag inv c := by
  induction inv with
  | nil => intro g c; simp [entriesWithTag]
  | cons kv rest ih =>
    intro g c
    rw [List.foldl_cons, ih]
    show bucketGet (bucketAppend g (tagOfKey kv.1) (nameOfKey kv.1, kv.2)) c
        ++ entriesWithTag rest c = _
    rw [bucketGet_bucketAppend]
    by_cases hc : c = tagOfKey kv.1
    · rw [if_pos hc]
      have : entriesWithTag (kv :: rest) c
          = (nameOfKey kv.1, kv.2) :: entriesWithTag rest c := by
        simp [entriesWithTag, List.filterMap_cons, hc.symm]
      rw [this]
      simp
    · rw [if_neg hc]
      have : entriesWithTag (kv :: rest) c = entriesWithTag rest c := by
        simp only [entriesWithTag, List.filterMap_cons]
        rw [if_neg (fun hx => hc hx.symm)]
      rw [this]

theorem bucketGet_buildGrouped (inv : List (String × Int))
    (cats : List String) (c : String) (h : cats.Nodup) :
    bucketGet (buildGrouped inv cats) c = entriesWithTag inv c := by
  unfold buildGrouped
  rw [bucketGet_group_foldl, bucketGet_emptyBuckets cats c h]
  rfl

theorem keys_group_foldl (inv : List (String × Int)) :
    ∀ g : Grouped,
      (inv.foldl groupStep g).map Prod.fst
        = (inv.map (fun kv => tagOfKey kv.1)).foldl addNew (g.map Prod.fst) := by
  induction inv with
  | nil => intro g; rfl
  | cons kv rest ih =>
    intro g
    rw [List.foldl_cons, List.map_cons, List.foldl_cons, ih]
    show ((rest.map fun kv => tagOfKey kv.1).foldl addNew
        ((bucketAppend g (tagOfKey kv.1) (nameOfKey kv.1, kv.2)).map Prod.fst)) = _
    rw [keys_bucketAppend]

theorem foldl_addNew_split (ts : List String) :
    ∀ (cats acc : List String),
      ts.foldl addNew (cats ++ acc)
        = cats ++ ts.foldl
            (fun acc t => if t ∈ cats ∨ t ∈ acc then acc else acc ++ [t]) acc := by
  induction ts with
  | nil => intro cats acc; rfl
  | cons t ts' ih =>
    intro cats acc
    rw [List.foldl_cons, List.foldl_cons]
    by_cases hm : t ∈ cats ∨ t ∈ acc
    · have h1 : addNew (cats ++ acc) t = cats ++ acc := by
        unfold addNew
        rw [if_pos (List.mem_append.mpr hm)]
      have h2 : (if t ∈ cats ∨ t ∈ acc then acc else acc ++ [t]) = acc := by
        rw [if_pos hm]
      rw [h1, h2]
      exact ih cats acc
    · have h1 : addNew (cats ++ acc) t = cats ++ (acc ++ [t]) := by
        unfold addNew
        rw [if_neg (fun hx => hm (List.mem_append.mp hx)), List.append_assoc]
      have h2 : (if t ∈ cats ∨ t ∈ acc then acc else acc ++ [t]) = acc ++ [t] := by
        rw [if_neg hm]
      rw [h1, h2]
      exact ih cats (acc ++ [t])

theorem extraTags_eq_foldl (inv : List (String × Int)) (cats : List String) :
    (inv.map (fun kv => tagOfKey kv.1)).foldl
        (fun acc t => if t ∈ cats ∨ t ∈ acc then acc else acc ++ [t]) []
      = extraTags inv cats := by
  rw [List.foldl_map]
  rfl

theorem keys_buildGrouped (inv : List (String × Int)) (cats : List String)
    (h : cats.Nodup) :
    (buildGrouped inv cats).map Prod.fst = cats ++ extraTags inv cats := by
  unfold buildGrouped
  rw [keys_group_foldl, keys_emptyBuckets cats h]
  have : (cats : List String) = cats ++ [] := by simp
  rw [this, foldl_addNew_split]
  simp only [List.append_nil]
  rw [extraTags_eq_foldl]

theorem nodup_append_singleton (l : List String) (a : String)
    (hl : l.Nodup) (ha : a ∉ l) : (l ++ [a]).Nodup := by
  induction l with
  | nil => simp
  | cons b bs ih =>
    rcases List.nodup_cons.mp hl with ⟨hb, hbs⟩
    have hane : a ∉ bs := fun hx => ha (List.mem_cons_of_mem _ hx)
    have hab : ¬(b = a) := fun hx => ha (by rw [hx]; exact List.mem_cons_self _ _)
    rw [List.cons_append]
    refine List.nodup_cons.mpr ⟨?_, ih hbs hane⟩
    intro hx
    rcases List.mem_append.mp hx with hy | hy
    · exact hb hy
    · exact hab (by simpa using hy)

theorem extra_fold_props (cats : List String) (inv : List (String × Int)) :
    ∀ acc : List String, acc.Nodup → (∀ t ∈ acc, t ∉ cats) →
      (inv.foldl (extraStep cats) acc).Nodup
        ∧ ∀ t ∈ inv.foldl (extraStep cats) acc, t ∉ cats := by
  induction inv with
  | nil => exact fun acc h1 h2 => ⟨h1, h2⟩
  | cons kv rest ih =>
    intro acc h1 h2
    rw [List.foldl_cons]
    by_cases hm : tagOfKey kv.1 ∈ cats ∨ tagOfKey kv.1 ∈ acc
    · have hstep : extraStep cats acc kv = acc := by
        unfold extraStep
        rw [if_pos hm]
      rw [hstep]
      exact ih acc h1 h2
    · have hm1 : tagOfKey kv.1 ∉ cats := fun hx => hm (Or.inl hx)
      have hm2 : tagOfKey kv.1 ∉ acc := fun hx => hm (Or.inr hx)
      have hstep : extraStep cats acc kv = acc ++ [tagOfKey kv.1] := by
        unfold extraStep
        rw [if_neg hm]
      rw [hstep]
      apply ih
      · exact nodup_append_singleton acc _ h1 hm2
      · intro t ht
        rcases List.mem_append.mp ht with hy | hy
        · exact h2 t hy
        · have ht' : t = tagOfKey kv.1 := by simpa using hy
          rw [ht']
          exact hm1

theorem extraTags_props (inv : List (String × Int)) (cats : List String) :
    (extraTags inv cats).Nodup ∧ ∀ t ∈ extraTags inv cats, t ∉ cats :=
  extra_fold_props cats inv [] List.nodup_nil
    (fun t ht => absurd ht (List.not_mem_nil t))

theorem mem_cover (cats : List String) (inv : List (String × Int)) :
    ∀ (acc : List String) (t : String),
      (t ∈ inv.map (fun kv => tagOfKey kv.1) ∨ t ∈ acc) →
      t ∈ cats ∨ t ∈ inv.foldl (extraStep cats) acc := by
  induction inv with
  | nil =>
    intro acc t h
    rcases h with h | h
    · simp at h
    · exact Or.inr h
  | cons kv rest ih =>
    intro acc t h
    rw [List.foldl_cons]
    by_cases hm : tagOfKey kv.1 ∈ cats ∨ tagOfKey kv.1 ∈ acc
    · have hstep : extraStep cats acc kv = acc := by
        unfold extraStep
        rw [if_pos hm]
      rw [hstep]
      rcases h with h | h
      · simp only [List.map_cons, List.mem_cons] at h
        rcases h with h | h
        · rcases hm with hc | hc
          · exact Or.inl (h ▸ hc)
          · exact ih acc t (Or.inr (h ▸ hc))
        · exact ih acc t (Or.inl h)
      · exact ih acc t (Or.inr h)
    · have hstep : extraStep cats acc kv = acc ++ [tagOfKey kv.1] := by
        unfold extraStep
        rw [if_neg hm]
      rw [hstep]
      rcases h with h | h
      · simp only [List.map_cons, List.mem_cons] at h
        rcases h with h | h
        · refine ih _ t (Or.inr ?_)
          rw [h]
          exact List.mem_append.mpr (Or.inr (List.mem_singleton.mpr rfl))
        · exact ih _ t (Or.inl h)
      · exact ih _ t (Or.inr (List.mem_append.mpr (Or.inl h)))

theorem orderedCats_buildGrouped (inv : List (String × Int))
    (cats : List String) (h : cats.Nodup) :
    orderedCats (buildGrouped inv cats) cats = cats ++ extraTags inv cats := by
  unfold orderedCats
  rw [keys_buildGrouped inv cats h, List.filter_append]
  have h1 : cats.filter (fun c => decide (c ∉ cats)) = [] := by
    rw [List.filter_eq_nil_iff]
    intro a ha
    simp [ha]
  have h2 : (extraTags inv cats).filter (fun c => decide (c ∉ cats))
      = extraTags inv cats := by
    rw [List.filter_eq_self]
    intro a ha
    have := (extraTags_props inv cats).2 a ha
    simp [this]
  rw [h1, h2]
  simp

theorem sectionTags_eq (inv : List (String × Int)) (cats : List String)
    (h : cats.Nodup) :
    sectionTags inv cats
      = (cats ++ extraTags inv cats).filter
          (fun c => decide (entriesWithTag inv c ≠ [])) := by
  show (orderedCats (buildGrouped inv cats) cats).filter
      (fun c => decide (bucketGet (buildGrouped inv cats) c ≠ [])) = _
  rw [orderedCats_buildGrouped inv cats h]
  exact List.filter_congr (fun c _ => by rw [bucketGet_buildGrouped inv cats c h])

theorem sectionTags_nodup (inv : List (String × Int)) (cats : List String)
    (h : cats.Nodup) : (sectionTags inv cats).Nodup := by
  rw [sectionTags_eq inv cats h]
  apply List.Nodup.filter
  apply List.Nodup.append h (extraTags_props inv cats).1
  intro a ha1 ha2
  exact (extraTags_props inv cats).2 a ha2 ha1

theorem entriesWithTag_ne_nil_mem (inv : List (String × Int)) (c : String)
    (h : entriesWithTag inv c ≠ []) :
    c ∈ inv.map (fun kv => tagOfKey kv.1) := by
  induction inv with
  | nil => simp [entriesWithTag] at h
  | cons kv rest ih =>
    by_cases hc : tagOfKey kv.1 = c
    · simp only [List.map_cons, List.mem_cons]
      exact Or.inl hc.symm
    · have hnone : (if tagOfKey kv.1 = c
          then some (nameOfKey kv.1, kv.2) else none) = none := if_neg hc
      simp only [entriesWithTag, List.filterMap_cons, hnone] at h
      simp only [List.map_cons, List.mem_cons]
      exact Or.inr (ih h)

theorem mem_sectionTags (inv : List (String × Int)) (cats : List String)
    (h : cats.Nodup) (c : String) :
    c ∈ sectionTags inv cats ↔ entriesWithTag inv c ≠ [] := by
  rw [sectionTags_eq inv cats h]
  constructor
  · intro hx
    have := (List.mem_filter.mp hx).2
    simpa using this
  · intro hne
    apply List.mem_filter.mpr
    refine ⟨?_, by simpa using hne⟩
    have hcov := mem_cover cats inv [] c
      (Or.inl (entriesWithTag_ne_nil_mem inv c hne))
    rcases hcov with hy | hy
    · exact List.mem_append.mpr (Or.inl hy)
    · exact List.mem_append.mpr (Or.inr hy)

theorem foldl_sections (F : String → Bucket) (G : String → List String) :
    ∀ (order init : List String),
      order.foldl (fun rows cat => if F cat = [] then rows else rows ++ G cat) init
        = init ++ (order.filter fun c => decide (F c ≠ [])).flatMap G := by
  intro order
  induction order with
  | nil => intro init; simp
  | cons c order' ih =>
    intro init
    rw [List.foldl_cons]
    by_cases hc : F c = []
    · rw [if_pos hc]
      have hfil : (c :: order').filter (fun c => decide (F c ≠ []))
          = order'.filter (fun c => decide (F c ≠ [])) := by
        rw [List.filter_cons, if_neg (by simp [hc])]
      rw [ih init, hfil]
    · rw [if_neg hc]
      have hfil : (c :: order').filter (fun c => decide (F c ≠ []))
          = c :: order'.filter (fun c => decide (F c ≠ [])) := by
        rw [List.filter_cons, if_pos (by simp [hc])]
      rw [ih (init ++ G c), hfil, List.flatMap_cons, List.append_assoc]

theorem rows_plain_eq_flatMap (inv : List (String × Int)) (cats : List String)
    (h : cats.Nodup) :
    rows_plain inv cats
      = (sectionTags inv cats).flatMap
          (fun c => plainSection c (sortPairs (entriesWithTag inv c))) := by
  have hfun : (fun c => plainSection c (sortPairs (entriesWithTag inv c)))
      = fun c => plainSection c (sortPairs (bucketGet (buildGrouped inv cats) c)) :=
    funext fun c => by rw [bucketGet_buildGrouped inv cats c h]
  rw [hfun]
  exact foldl_sections (fun c => bucketGet (buildGrouped inv cats) c)
    (fun c => plainSection c (sortPairs (bucketGet (buildGrouped inv cats) c)))
    (orderedCats (buildGrouped inv cats) cats) []

theorem rows_html_eq_flatMap (inv : List (String × Int)) (cats : List String)
    (h : cats.Nodup) :
    rows_html inv cats
      = (sectionTags inv cats).flatMap
          (fun c => htmlSection c (sortPairs (entriesWithTag inv c))) := by
  have hfun : (fun c => htmlSection c (sortPairs (entriesWithTag inv c)))
      = fun c => htmlSection c (sortPairs (bucketGet (buildGrouped inv cats) c)) :=
    funext fun c => by rw [bucketGet_buildGrouped inv cats c h]
  rw [hfun]
  exact foldl_sections (fun c => bucketGet (buildGrouped inv cats) c)
    (fun c => htmlSection c (sortPairs (bucketGet (buildGrouped inv cats) c)))
    (orderedCats (buildGrouped inv cats) cats) []

theorem insertPair_perm (e : String × Int) (b : Bucket) :
    List.Perm (insertPair e b) (e :: b) := by
  induction b with
  | nil => exact List.Perm.refl _
  | cons x xs ih =>
    unfold insertPair
    by_cases hle : pairLe e x = true
    · rw [if_pos hle]
    · rw [if_neg hle]
      exact (ih.cons x).trans (List.Perm.swap e x xs)

theorem sortPairs_perm (b : Bucket) : List.Perm (sortPairs b) b := by
  induction b with
  | nil => exact List.Perm.refl _
  | cons e xs ih =>
    show List.Perm (insertPair e (sortPairs xs)) (e :: xs)
    exact (insertPair_perm e (sortPairs xs)).trans (ih.cons e)

theorem flatMap_perm_congr {α β : Type} (l : List α) (f g : α → List β)
    (h : ∀ a ∈ l, List.Perm (f a) (g a)) :
    List.Perm (l.flatMap f) (l.flatMap g) := by
  induction l with
  | nil => exact List.Perm.refl _
  | cons a as ih =>
    rw [List.flatMap_cons, List.flatMap_cons]
    exact List.Perm.append (h a (List.mem_cons_self _ _))
      (ih (fun a' ha' => h a' (List.mem_cons_of_mem _ ha')))

theorem flatMap_congr_mem {α β : Type} (l : List α) (f g : α → List β)
    (h : ∀ a ∈ l, f a = g a) : l.flatMap f = l.flatMap g := by
  induction l with
  | nil => rfl
  | cons a as ih =>
    rw [List.flatMap_cons, List.flatMap_cons,
      h a (List.mem_cons_self _ _),
      ih (fun a' ha' => h a' (List.mem_cons_of_mem _ ha'))]

theorem filter_flatMap_eq (F : String → Bucket) :
    ∀ l : List String,
      (l.filter fun c => decide (F c ≠ [])).flatMap F = l.flatMap F := by
  intro l
  induction l with
  | nil => rfl
  | cons c cs ih =>
    rw [List.filter_cons]
    by_cases hc : F c = []
    · rw [if_neg (by simp [hc]), ih, List.flatMap_cons, hc, List.nil_append]
    · rw [if_pos (by simp [hc]), List.flatMap_cons, List.flatMap_cons, ih]

theorem filter_filter_ne (T : List (String × String × Int)) (c d : String)
    (hne : d ≠ c) :
    (T.filter fun e => !decide (e.1 = c)).filter (fun e => decide (e.1 = d))
      = T.filter (fun e => decide (e.1 = d)) := by
  induction T with
  | nil => rfl
  | cons e T' ih =>
    by_cases hec : e.1 = c
    · have hed : ¬(e.1 = d) := fun hx => hne ((hx ▸ hec : d = c))
      rw [List.filter_cons, if_neg (by simp [hec]),
        List.filter_cons, if_neg (by simp [hed]), ih]
    · rw [List.filter_cons, if_pos (by simp [hec])]
      by_cases hed : e.1 = d
      · rw [List.filter_cons, if_pos (by simp [hed]),
          List.filter_cons, if_pos (by simp [hed]), ih]
      · rw [List.filter_cons, if_neg (by simp [hed]),
          List.filter_cons, if_neg (by simp [hed]), ih]

theorem filter_not_filter_perm (p : String × String × Int → Bool)
    (l : List (String × String × Int)) :
    List.Perm (l.filter p ++ l.filter (fun a => !(p a))) l := by
  induction l with
  | nil => exact List.Perm.refl _
  | cons a l' ih =>
    by_cases hp : p a = true
    · rw [List.filter_cons, if_pos hp, List.filter_cons, if_neg (by simp [hp])]
      exact ih.cons a
    · rw [List.filter_cons, if_neg (by simp [hp]),
        List.filter_cons, if_pos (by simp [hp])]
      exact List.perm_middle.trans (ih.cons a)

theorem partition_perm (cs : List String) :
    ∀ T : List (String × String × Int), cs.Nodup → (∀ e ∈ T, e.1 ∈ cs) →
      List.Perm (cs.flatMap fun c => T.filter (fun e => decide (e.1 = c))) T := by
  induction cs with
  | nil =>
    intro T _ hcov
    cases T with
    | nil => exact List.Perm.refl _
    | cons e T' => exact absurd (hcov e (List.mem_cons_self _ _)) (List.not_mem_nil _)
  | cons c cs' ih =>
    intro T hnd hcov
    rw [List.flatMap_cons]
    have hnotin : c ∉ cs' := (List.nodup_cons.mp hnd).1
    have hcong : cs'.flatMap (fun d => T.filter (fun e => decide (e.1 = d)))
        = cs'.flatMap (fun d => (T.filter fun e => !decide (e.1 = c)).filter
            (fun e => decide (e.1 = d))) :=
      flatMap_congr_mem _ _ _
        (fun d hd => (filter_filter_ne T c d (fun hx => hnotin (hx ▸ hd))).symm)
    rw [hcong]
    have hT' : ∀ e ∈ T.filter (fun e => !decide (e.1 = c)), e.1 ∈ cs' := by
      intro e he
      have hmem := List.mem_filter.mp he
      have h1 : e.1 ∈ c :: cs' := hcov e hmem.1
      have h2 : ¬(e.1 = c) := by simpa using hmem.2
      rcases List.mem_cons.mp h1 with hx | hx
      · exact absurd hx h2
      · exact hx
    have hperm := ih (T.filter fun e => !decide (e.1 = c))
      (List.nodup_cons.mp hnd).2 hT'
    exact (hperm.append_left (T.filter fun e => decide (e.1 = c))).trans
      (filter_not_filter_perm (fun e => decide (e.1 = c)) T)

theorem entriesWithTag_eq (inv : List (String × Int)) (c : String) :
    entriesWithTag inv c
      = ((inv.map fun kv => (tagOfKey kv.1, nameOfKey kv.1, kv.2)).filter
          (fun e => decide (e.1 = c))).map (fun e => e.2) := by
  induction inv with
  | nil => rfl
  | cons kv rest ih =>
    by_cases hc : tagOfKey kv.1 = c
    · have hsome : (if tagOfKey kv.1 = c
          then some (nameOfKey kv.1, kv.2) else none)
          = some (nameOfKey kv.1, kv.2) := if_pos hc
      have hhead : entriesWithTag (kv :: rest) c
          = (nameOfKey kv.1, kv.2) :: entriesWithTag rest c := by
        simp only [entriesWithTag, List.filterMap_cons, hsome]
      rw [hhead, ih]
      simp only [List.map_cons, List.filter_cons]
      rw [if_pos (by simpa using hc)]
      simp only [List.map_cons]
    · have hnone : (if tagOfKey kv.1 = c
          then some (nameOfKey kv.1, kv.2) else none) = none := if_neg hc
      have hhead : entriesWithTag (kv :: rest) c = entriesWithTag rest c := by
        simp only [entriesWithTag, List.filterMap_cons, hnone]
      rw [hhead, ih]
      simp only [List.map_cons, List.filter_cons]
      rw [if_neg (by simpa using hc)]

theorem flatMap_map_comm {α β γ : Type} (l : List α) (F : α → List β)
    (f : β → γ) :
    l.flatMap (fun a => (F a).map f) = (l.flatMap F).map f := by
  induction l with
  | nil => rfl
  | cons a as ih =>
    rw [List.flatMap_cons, List.flatMap_cons, List.map_append, ih]

theorem map_snd_triples (inv : List (String × Int)) :
    ((inv.map fun kv => (tagOfKey kv.1, nameOfKey kv.1, kv.2)).map fun e => e.2)
      = entryList inv := by
  rw [List.map_map]
  rfl

/--
C5 counterexample: the claim fails for an arbitrary category list —
with the duplicated list ["Cafe", "Cafe"], the single tag "Cafe"
yields two sections, and the plain rows contain its header twice
(every entry is also emitted twice), contradicting "exactly one
section per distinct non-empty tag".
-/
theorem c5_counterexample :
    sectionTags [("Tea~~~Cafe", 1)] ["Cafe", "Cafe"] = ["Cafe", "Cafe"]
      ∧ ¬(sectionTags [("Tea~~~Cafe", 1)] ["Cafe", "Cafe"]).Nodup
      ∧ (rows_plain [("Tea~~~Cafe", 1)] ["Cafe", "Cafe"]).count "=== Cafe ===" = 2 := by
  decide

/--
C5 (amended): for every entry list with decodable keys and every
duplicate-free category list, the emitted sections are exactly the
distinct tags with a non-empty bucket, ordered configured categories
first (in configured order) then unrecognized tags in first-seen
order; the plain and markup row lists are both generated one section
per emitted tag from the same sorted buckets; and the entries across
all sections are a permutation of the input entries — none dropped,
none duplicated, identically in both forms.
-/
theorem c5_render_sections (inv : List (String × Int)) (cats : List String)
    (hcats : cats.Nodup)
    (hkeys : ∀ kv ∈ inv, (rsplitLast (kv.1).data).isSome = true) :
    sectionTags inv cats
        = (cats ++ extraTags inv cats).filter
            (fun c => decide (entriesWithTag inv c ≠ []))
      ∧ (sectionTags inv cats).Nodup
      ∧ (∀ c, c ∈ sectionTags inv cats ↔ entriesWithTag inv c ≠ [])
      ∧ rows_plain inv cats
          = (sectionTags inv cats).flatMap
              (fun c => plainSection c (sortPairs (entriesWithTag inv c)))
      ∧ rows_html inv cats
          = (sectionTags inv cats).flatMap
              (fun c => htmlSection c (sortPairs (entriesWithTag inv c)))
      ∧ List.Perm
          ((sectionTags inv cats).flatMap
            (fun c => sortPairs (entriesWithTag inv c)))
          (entryList inv) := by
  refine ⟨sectionTags_eq inv cats hcats, sectionTags_nodup inv cats hcats,
    mem_sectionTags inv cats hcats, rows_plain_eq_flatMap inv cats hcats,
    rows_html_eq_flatMap inv cats hcats, ?_⟩
  have hsorted : List.Perm
      ((sectionTags inv cats).flatMap fun c => sortPairs (entriesWithTag inv c))
      ((sectionTags inv cats).flatMap fun c => entriesWithTag inv c) :=
    flatMap_perm_congr _ _ _ (fun c _ => sortPairs_perm _)
  apply hsorted.trans
  have hnodupall : (cats ++ extraTags inv cats).Nodup := by
    apply List.Nodup.append hcats (extraTags_props inv cats).1
    intro a ha1 ha2
    exact (extraTags_props inv cats).2 a ha2 ha1
  have hcov : ∀ e ∈ inv.map (fun kv => (tagOfKey kv.1, nameOfKey kv.1, kv.2)),
      e.1 ∈ cats ++ extraTags inv cats := by
    intro e he
    rcases List.mem_map.mp he with ⟨kv, hkv, hekv⟩
    have htag : e.1 ∈ inv.map (fun kv => tagOfKey kv.1) := by
      rw [← hekv]
      exact List.mem_map.mpr ⟨kv, hkv, rfl⟩
    rcases mem_cover cats inv [] e.1 (Or.inl htag) with hy | hy
    · exact List.mem_append.mpr (Or.inl hy)
    · exact List.mem_append.mpr (Or.inr hy)
  have e1 : (sectionTags inv cats).flatMap (fun c => entriesWithTag inv c)
      = ((cats ++ extraTags inv cats).filter
            (fun c => decide (entriesWithTag inv c ≠ []))).flatMap
          (fun c => entriesWithTag inv c) := by
    rw [sectionTags_eq inv cats hcats]
  have e2 := filter_flatMap_eq (fun c => entriesWithTag inv c)
    (cats ++ extraTags inv cats)
  have e3 : (cats ++ extraTags inv cats).flatMap (fun c => entriesWithTag inv c)
      = (cats ++ extraTags inv cats).flatMap
          (fun c => ((inv.map fun kv => (tagOfKey kv.1, nameOfKey kv.1, kv.2)).filter
            (fun e => decide (e.1 = c))).map (fun e => e.2)) :=
    flatMap_congr_mem _ _ _ (fun c _ => entriesWithTag_eq inv c)
  have e4 := flatMap_map_comm (cats ++ extraTags inv cats)
    (fun c => (inv.map fun kv => (tagOfKey kv.1, nameOfKey kv.1, kv.2)).filter
      (fun e => decide (e.1 = c)))
    (fun e => e.2)
  have p5 := List.Perm.map (fun e : String × String × Int => e.2)
    (partition_perm (cats ++ extraTags inv cats)
      (inv.map fun kv => (tagOfKey kv.1, nameOfKey kv.1, kv.2)) hnodupall hcov)
  rw [e1, e2, e3, e4, ← map_snd_triples inv]
  exact p5

/--
C5 witness: the example scenario — entries Muffin/Cafe=5,
Bagel/Market=1 plus the unrecognized tag Herbal, categories
["Cafe", "Market"]; the plain row list evaluates to the expected
three sections in order.
-/
theorem c5_witness :
    (["Cafe", "Market"] : List String).Nodup
      ∧ (∀ kv ∈ ([("Muffin~~~Cafe", 5), ("Bagel~~~Market", 1),
            ("Tea~~~Herbal", 4)] : List (String × Int)),
          (rsplitLast (kv.1).data).isSome = true)
      ∧ (sectionTags [("Muffin~~~Cafe", 5), ("Bagel~~~Market", 1), ("Tea~~~Herbal", 4)]
            ["Cafe", "Market"]
          = (["Cafe", "Market"]
              ++ extraTags [("Muffin~~~Cafe", 5), ("Bagel~~~Market", 1), ("Tea~~~Herbal", 4)]
                  ["Cafe", "Market"]).filter
              (fun c => decide (entriesWithTag
                [("Muffin~~~Cafe", 5), ("Bagel~~~Market", 1), ("Tea~~~Herbal", 4)] c ≠ []))
          ∧ (sectionTags [("Muffin~~~Cafe", 5), ("Bagel~~~Market", 1), ("Tea~~~Herbal", 4)]
              ["Cafe", "Market"]).Nodup
          ∧ (∀ c, c ∈ sectionTags
                [("Muffin~~~Cafe", 5), ("Bagel~~~Market", 1), ("Tea~~~Herbal", 4)]
                ["Cafe", "Market"]
              ↔ entriesWithTag
                  [("Muffin~~~Cafe", 5), ("Bagel~~~Market", 1), ("Tea~~~Herbal", 4)] c ≠ [])
          ∧ rows_plain [("Muffin~~~Cafe", 5), ("Bagel~~~Market", 1), ("Tea~~~Herbal", 4)]
              ["Cafe", "Market"]
            = (sectionTags [("Muffin~~~Cafe", 5), ("Bagel~~~Market", 1), ("Tea~~~Herbal", 4)]
                ["Cafe", "Market"]).flatMap
                (fun c => plainSection c (sortPairs (entriesWithTag
                  [("Muffin~~~Cafe", 5), ("Bagel~~~Market", 1), ("Tea~~~Herbal", 4)] c)))
          ∧ rows_html [("Muffin~~~Cafe", 5), ("Bagel~~~Market", 1), ("Tea~~~Herbal", 4)]
              ["Cafe", "Market"]
            = (sectionTags [("Muffin~~~Cafe", 5), ("Bagel~~~Market", 1), ("Tea~~~Herbal", 4)]
                ["Cafe", "Market"]).flatMap
                (fun c => htmlSection c (sortPairs (entriesWithTag
                  [("Muffin~~~Cafe", 5), ("Bagel~~~Market", 1), ("Tea~~~Herbal", 4)] c)))
          ∧ List.Perm
              ((sectionTags [("Muffin~~~Cafe", 5), ("Bagel~~~Market", 1), ("Tea~~~Herbal", 4)]
                  ["Cafe", "Market"]).flatMap
                (fun c => sortPairs (entriesWithTag
                  [("Muffin~~~Cafe", 5), ("Bagel~~~Market", 1), ("Tea~~~Herbal", 4)] c)))
              (entryList [("Muffin~~~Cafe", 5), ("Bagel~~~Market", 1), ("Tea~~~Herbal", 4)]))
      ∧ rows_plain [("Muffin~~~Cafe", 5), ("Bagel~~~Market", 1), ("Tea~~~Herbal", 4)]
          ["Cafe", "Market"]
        = ["=== Cafe ===", "Item\tQuantity", "Muffin\t5", "",
           "=== Market ===", "Item\tQuantity", "Bagel\t1", "",
           "=== Herbal ===", "Item\tQuantity", "Tea\t4", ""] :=
  ⟨by decide, by decide,
    c5_render_sections
      [("Muffin~~~Cafe", 5), ("Bagel~~~Market", 1), ("Tea~~~Herbal", 4)]
      ["Cafe", "Market"] (by decide) (by decide),
    by decide⟩

end Inv
